import Mathlib

/-!
# Verification of the SSARdsp DSP library

Shallow embedding of the DSP core in `SSARdsp.js` (complex FFT/IFFT,
autocorrelation, Levinson-Durbin recursion, linear-interpolation
resampling, autocorrelation pitch detection, and vector quantization),
together with theorems settling the specification claims about it.

Conventions of the embedding:
* JS `number` values are modelled by `ℚ` wherever the evaluated traces
  stay exact in IEEE-754 doubles (all concrete inputs below keep every
  intermediate value with a tiny denominator, where doubles are exact);
  the FFT, whose twiddle factors are irrational, is modelled over `ℂ`.
* Divisions that can hit a zero denominator are modelled either with the
  explicit IEEE model `JsNum` (finite rational plus NaN and the two
  infinities) or are only evaluated away from zero denominators.
* JS array reads that can go past the end of an array (`undefined` in
  JS) are modelled with `Option`, `none` marking `undefined`.
* Mutating loops are modelled by folds over the loop index range,
  threading the mutated arrays as state.
-/

namespace SSARdsp

/-! ## Complex FFT (`cfft`, SSARdsp.js lines 33–56) -/

/-- Even-indexed entries of a list: the `even[i] = amplitudes[i*2]` copy
loop of `cfft` (lines 39–42). -/
def evens : List ℂ → List ℂ
  | [] => []
  | [x] => [x]
  | x :: _ :: rest => x :: evens rest

/-- Odd-indexed entries of a list: the `odd[i] = amplitudes[i*2+1]` copy
loop of `cfft` (lines 39–42). -/
def odds : List ℂ → List ℂ
  | [] => []
  | [_] => []
  | _ :: y :: rest => y :: odds rest

theorem evens_length : ∀ l : List ℂ, (evens l).length = (l.length + 1) / 2
  | [] => by simp [evens]
  | [_] => by simp [evens]
  | _ :: _ :: rest => by
      simp only [evens, List.length_cons, evens_length rest]
      omega

theorem odds_length : ∀ l : List ℂ, (odds l).length = l.length / 2
  | [] => by simp [odds]
  | [_] => by simp [odds]
  | _ :: _ :: rest => by
      simp only [odds, List.length_cons, odds_length rest]
      omega

set_option linter.unusedVariables false in
/-- The recursive Cooley-Tukey routine of the source, lines 33–56,
modelled faithfully INCLUDING its defect: on line 51 the source runs
`t.mul(oddFFT[k])` but `Complex.prototype.mul` returns a fresh complex
number and the result is never stored, so the combine step on lines
52–53 adds and subtracts the bare twiddle factor `exp(-2πi·k/N)` and the
recursively transformed odd half (`oddFFT`, computed on line 44) never
flows into the output.  `new Complex(0, a*p).cexp()` with `a = -2π`,
`p = k/N` is exactly `Complex.exp ⟨0, -2π(k/N)⟩`.  The source's in-place
writes to `amplitudes` only read from the fresh `evenFFT`/`oddFFT`
arrays, so the functional translation is exact.  For the odd lengths the
source would index fractionally; every claim evaluates power-of-two
lengths only, where `N/2` is exact. -/
noncomputable def cfft (x : List ℂ) : List ℂ :=
  if h : x.length ≤ 1 then x
  else
    let N := x.length
    let evenFFT := cfft (evens x)
    let oddFFT := cfft (odds x)
    (List.range (N / 2)).map
        (fun k => evenFFT.getD k 0 +
          Complex.exp ⟨0, -2 * Real.pi * ((k : ℝ) / (N : ℝ))⟩) ++
      (List.range (N / 2)).map
        (fun k => evenFFT.getD k 0 -
          Complex.exp ⟨0, -2 * Real.pi * ((k : ℝ) / (N : ℝ))⟩)
termination_by x.length
decreasing_by
  · rw [evens_length]; omega
  · rw [odds_length]; omega

/-- Embedding of `icfft` (lines 59–72): conjugate, forward transform, conjugate and
scale by `1/N`.  The source negates `im` first and then multiplies both
parts by `iN = 1/N`, so the output entry is `(re·(1/N), (-im)·(1/N))`. -/
noncomputable def icfft (x : List ℂ) : List ℂ :=
  let N := x.length
  let conjugated := x.map fun z => (⟨z.re, -z.im⟩ : ℂ)
  let y := cfft conjugated
  y.map fun z => (⟨z.re * (1 / (N : ℝ)), -z.im * (1 / (N : ℝ))⟩ : ℂ)

/-! ## Autocorrelation (`autocorr`, lines 75–86) -/

/-- Embedding of `autocorr` (lines 75–86): unnormalized lag sums,
`ac[lag] = Σ_{i=0}^{n-1-lag} signal[i]·signal[i+lag]`.  The inner `for`
accumulation is written as a `Finset.range` sum. -/
def autocorr (signal : List ℚ) : List ℚ :=
  let n := signal.length
  (List.range n).map fun lag =>
    ∑ i ∈ Finset.range (n - lag), signal.getD i 0 * signal.getD (i + lag) 0

/-! ## Levinson-Durbin (`levinsonDurbin`, lines 89–107), exact-rational model -/

/-- One step `m` of the Levinson-Durbin loop exactly as the source
executes it (lines 94–105).  The coefficient update `a[j] += k·a[m-j]`
runs IN PLACE for increasing `j` (lines 101–103), so for `j > m-j` it
reads an entry already overwritten earlier in the same step.  Lean's
`x / 0 = 0` convention stands in for IEEE division; the claims that use
this exact-rational model only evaluate it on traces with nonzero
`e[m-1]` (the zero-energy behaviour is modelled by `ldStepJS` below). -/
def ldStep (R : List ℚ) (st : List ℚ × List ℚ) (m : ℕ) : List ℚ × List ℚ :=
  let a := st.1
  let e := st.2
  let s := (List.range' 1 (m - 1)).foldl
    (fun acc j => acc + a.getD j 0 * R.getD (m - j) 0) (R.getD m 0)
  let k := -s / e.getD (m - 1) 0
  let a1 := a.set m k
  let a2 := (List.range' 1 (m - 1)).foldl
    (fun acc j => acc.set j (acc.getD j 0 + k * acc.getD (m - j) 0)) a1
  (a2, e.set m (e.getD (m - 1) 0 * (1 - k * k)))

/-- The initial state of lines 90–93: `a` and `e` are zero-filled arrays
of length `order+1` with `a[0] = 1` and `e[0] = R[0]`. -/
def ldInit (R : List ℚ) (order : ℕ) : List ℚ × List ℚ :=
  ((List.replicate (order + 1) 0).set 0 1,
   (List.replicate (order + 1) 0).set 0 (R.getD 0 0))

/-- The full `for (m = 1; m <= order; m++)` loop of lines 94–105. -/
def ldRun (R : List ℚ) (order : ℕ) : List ℚ × List ℚ :=
  (List.range' 1 order).foldl (ldStep R) (ldInit R order)

/-- Embedding of `levinsonDurbin` (lines 89–107): the returned coefficient array. -/
def levinsonDurbin (R : List ℚ) (order : ℕ) : List ℚ :=
  (ldRun R order).1

/-- The internal prediction-error array `e` of `levinsonDurbin`, exposed
for the energy-sequence claims. -/
def ldErrors (R : List ℚ) (order : ℕ) : List ℚ :=
  (ldRun R order).2

/-- Reference Levinson-Durbin step, identical to `ldStep` except that
the coefficient update reads the order-`(m-1)` coefficients through a
scratch copy (`a1`, which agrees with the pre-step `a` on indices
`1..m-1`), as the specification requires. -/
def ldStepRef (R : List ℚ) (st : List ℚ × List ℚ) (m : ℕ) : List ℚ × List ℚ :=
  let a := st.1
  let e := st.2
  let s := (List.range' 1 (m - 1)).foldl
    (fun acc j => acc + a.getD j 0 * R.getD (m - j) 0) (R.getD m 0)
  let k := -s / e.getD (m - 1) 0
  let a1 := a.set m k
  let a2 := (List.range' 1 (m - 1)).foldl
    (fun acc j => acc.set j (a1.getD j 0 + k * a1.getD (m - j) 0)) a1
  (a2, e.set m (e.getD (m - 1) 0 * (1 - k * k)))

/-- Reference Levinson-Durbin recursion (scratch-copy update). -/
def levinsonDurbinRef (R : List ℚ) (order : ℕ) : List ℚ :=
  ((List.range' 1 order).foldl (ldStepRef R) (ldInit R order)).1

/-! ## IEEE model of JS numbers and the Levinson-Durbin breakdown path -/

/-- A JS IEEE-754 double, modelled as an exact rational finite value,
NaN, or a signed infinity (`inf true` is `+∞`).  `-0` is not modelled:
in the traces evaluated below every zero arises as IEEE `+0` (a
`Float64Array` fill or the product `1·0`), matching the `+0` division
convention used in `JsNum.div`.  Finite arithmetic is exact; the
evaluated traces keep all intermediate values integral, where doubles
incur no rounding. -/
inductive JsNum where
  | num : ℚ → JsNum
  | nan : JsNum
  | inf : Bool → JsNum
deriving DecidableEq

namespace JsNum

/-- IEEE addition. -/
def add : JsNum → JsNum → JsNum
  | nan, _ => nan
  | _, nan => nan
  | inf s, inf t => if s = t then inf s else nan
  | inf s, num _ => inf s
  | num _, inf t => inf t
  | num a, num b => num (a + b)

/-- IEEE negation. -/
def neg : JsNum → JsNum
  | nan => nan
  | inf s => inf (!s)
  | num a => num (-a)

/-- IEEE subtraction `x - y = x + (-y)`. -/
def sub (x y : JsNum) : JsNum := x.add y.neg

/-- IEEE multiplication. -/
def mul : JsNum → JsNum → JsNum
  | nan, _ => nan
  | _, nan => nan
  | inf s, inf t => inf (s == t)
  | inf s, num b => if 0 < b then inf s else if b < 0 then inf (!s) else nan
  | num a, inf t => if 0 < a then inf t else if a < 0 then inf (!t) else nan
  | num a, num b => num (a * b)

/-- IEEE division; a zero denominator is `+0` (see the type's docstring). -/
def div : JsNum → JsNum → JsNum
  | nan, _ => nan
  | _, nan => nan
  | inf _, inf _ => nan
  | inf s, num b => if 0 < b then inf s else if b < 0 then inf (!s) else inf s
  | num _, inf _ => num 0
  | num a, num b =>
      if b = 0 then
        if 0 < a then inf true else if a < 0 then inf false else nan
      else num (a / b)

end JsNum

/-- Reading `R[m]` in JS: past the end of the argument array the read
yields `undefined`, which behaves as NaN in arithmetic. -/
def jsIndex (R : List ℚ) (m : ℕ) : JsNum :=
  match R[m]? with
  | some v => .num v
  | none => .nan

/-- Variant of `ldStep` with IEEE number semantics: the same lines 94–105, used to
evaluate the division-by-zero (numerical breakdown) path.  The `a` and
`e` arrays are length `order+1` and all their reads are in bounds, so
the `getD` defaults are never consulted. -/
def ldStepJS (R : List ℚ) (st : List JsNum × List JsNum) (m : ℕ) :
    List JsNum × List JsNum :=
  let a := st.1
  let e := st.2
  let s := (List.range' 1 (m - 1)).foldl
    (fun acc j => acc.add ((a.getD j (.num 0)).mul (jsIndex R (m - j))))
    (jsIndex R m)
  let k := s.neg.div (e.getD (m - 1) (.num 0))
  let a1 := a.set m k
  let a2 := (List.range' 1 (m - 1)).foldl
    (fun acc j => acc.set j ((acc.getD j (.num 0)).add
      (k.mul (acc.getD (m - j) (.num 0))))) a1
  (a2, e.set m ((e.getD (m - 1) (.num 0)).mul ((JsNum.num 1).sub (k.mul k))))

/-- Embedding of `levinsonDurbin` under IEEE number semantics (lines 89–107). -/
def levinsonDurbinJS (R : List ℚ) (order : ℕ) : List JsNum :=
  ((List.range' 1 order).foldl (ldStepJS R)
    ((List.replicate (order + 1) (JsNum.num 0)).set 0 (.num 1),
     (List.replicate (order + 1) (JsNum.num 0)).set 0 (jsIndex R 0))).1

/-! ## Resampler (`resample`, lines 129–144) -/

/-- A JS array read at a (possibly negative) integer index: out of range
yields `undefined`, modelled as `none`. -/
def jsGet (l : List ℚ) (z : ℤ) : Option ℚ :=
  if 0 ≤ z then l[z.toNat]? else none

/-- Embedding of `resample` (lines 129–144): `ratio = oldFs/newFs`, output length
`⌈len/ratio⌉`, each entry linearly interpolated between `signal[⌊pos⌋]`
and `signal[⌊pos⌋+1]` when the latter is in range, else copied from
`signal[⌊pos⌋]`.  Array reads are `Option`-valued: `none` marks a read
past the end (JS `undefined`, which would propagate as NaN).  A negative
`newLength` (impossible for the positive rates of the claims) truncates
to `0` where JS would throw on the `Float64Array` constructor. -/
def resample (signal : List ℚ) (oldFs newFs : ℚ) : List (Option ℚ) :=
  let ratio := oldFs / newFs
  let newLength := (⌈(signal.length : ℚ) / ratio⌉).toNat
  (List.range newLength).map fun (i : ℕ) =>
    let pos := (i : ℚ) * ratio
    let low := ⌊pos⌋
    let frac := pos - low
    if low + 1 < (signal.length : ℤ) then
      match jsGet signal low, jsGet signal (low + 1) with
      | some x0, some x1 => some (x0 * (1 - frac) + x1 * frac)
      | _, _ => none
    else jsGet signal low

/-- Totalization of `resample` with its entries unwrapped, used to compose calls (as
`waveformCodingSynthesis`, lines 273–278, and the round-trip claim do).
For a nonempty signal and positive rates every read of `resample` is in
bounds (the safety theorem below), so the `getD` default is never
consulted there; the output length, the only thing the round-trip claim
measures, is independent of the entry values. -/
def resampleQ (signal : List ℚ) (oldFs newFs : ℚ) : List ℚ :=
  (resample signal oldFs newFs).map fun o => o.getD 0

/-! ## Pitch detection (`pitchDetectionAutocorr`, lines 235–252) -/

/-- Embedding of `Math.max(...ac)`: the fold JS performs over a nonempty spread.  For
the empty list JS yields `-Infinity`; the stand-in `-1` is
observationally equivalent there, since the value is then only compared
with `0` (false for both) and used to divide an empty list. -/
def jsMax (l : List ℚ) : ℚ :=
  match l with
  | [] => -1
  | x :: xs => xs.foldl max x

/-- JS `x < q` where `x` may be `undefined`: any comparison with
`undefined` is false. -/
def jsLtOpt (x : Option ℚ) (q : ℚ) : Bool :=
  match x with
  | some v => decide (v < q)
  | none => false

/-- JS `x > y` where either side may be `undefined`: any comparison with
`undefined` is false. -/
def jsGtOpt (x y : Option ℚ) : Bool :=
  match x, y with
  | some a, some b => decide (b < a)
  | _, _ => false

/-- Embedding of `pitchDetectionAutocorr` (lines 235–252).  The search loop
`for (i = minLag+1; i < maxLag; i++)` is folded over its exact integer
iteration range; `normalized[i]` reads are `Option`-valued since the lag
window can exceed the array (the out-of-range case under scrutiny in the
claims).  The final `fs / peakLag` is rational division; the evaluated
traces have `peakLag ≠ 0` (JS would yield `Infinity` at `peakLag = 0`). -/
def pitchDetectionAutocorr (signal : List ℚ) (fs minFreq maxFreq : ℚ) : ℚ :=
  let ac := autocorr signal
  let maxAuto := jsMax ac
  if maxAuto = 0 then 0
  else
    let normalized := ac.map fun v => v / maxAuto
    let minLag : ℤ := ⌊fs / maxFreq⌋
    let maxLag : ℤ := ⌊fs / minFreq⌋
    let count := (maxLag - (minLag + 1)).toNat
    let final := (List.range count).foldl
      (fun (st : ℤ × Option ℚ) (t : ℕ) =>
        let i : ℤ := minLag + 1 + (t : ℤ)
        let v := jsGet normalized i
        if jsGtOpt v st.2 then (i, v) else st)
      (minLag, jsGet normalized minLag)
    if jsLtOpt final.2 (1 / 2) then 0 else fs / (final.1 : ℚ)

/-! ## Vector quantization (lines 156–223) -/

/-- Squared Euclidean distance accumulated over the first `D`
coordinates, `dist += (f[d] - c[d])²` for `d < D` (lines 171–174 and
211–214).  An out-of-range read is `0` here where JS would produce NaN;
the theorems below only apply it within the vectors' lengths. -/
def sqDistUpTo (D : ℕ) (f c : List ℚ) : ℚ :=
  (List.range D).foldl (fun acc d => acc + (f.getD d 0 - c.getD d 0) ^ 2) 0

/-- The squared distance of `vectorQuantization` (lines 211–214), which
runs `d` over `features[i].length`. -/
def sqDist (f c : List ℚ) : ℚ := sqDistUpTo f.length f c

/-- The nearest-codeword scan shared by lines 167–179 and 208–219:
`minDist` starts as `Infinity` (modelled as `none`), `minIdx` as `0`,
and each candidate distance replaces the pair only on a strict
decrease. -/
def scanMin : List ℚ → ℕ → Option ℚ × ℕ → Option ℚ × ℕ
  | [], _, st => st
  | d :: rest, k, st =>
      let take :=
        match st.1 with
        | none => true
        | some m => decide (d < m)
      scanMin rest (k + 1) (if take then (some d, k) else st)

/-- Index of the nearest codeword to `f` (lines 208–219): the scan over
the per-codeword distances `sqDist f`. -/
def nearestIdx (codebook : List (List ℚ)) (f : List ℚ) : ℕ :=
  (scanMin (codebook.map (sqDist f)) 0 (none, 0)).2

/-- Embedding of `vectorQuantization` (lines 205–223): one nearest index per feature
vector. -/
def vectorQuantization (codebook features : List (List ℚ)) : List ℕ :=
  features.map (nearestIdx codebook)

/-- The nearest-codeword scan of the training loop (lines 167–179),
which runs the distance accumulation over `D = features[0].length`. -/
def nearestIdxD (D : ℕ) (codebook : List (List ℚ)) (f : List ℚ) : ℕ :=
  (scanMin (codebook.map (sqDistUpTo D f)) 0 (none, 0)).2

/-- One iteration of the `trainVqCodebook` k-means loop body (lines
163–201), mapping the current codebook to the next: assign each feature
to its nearest codeword accumulating counts and coordinate sums (lines
164–185, `newCodebook` starting zero-filled), then divide each sum by
its count when positive and install `newCodebook[k]` as the new
codeword unconditionally (lines 187–199).  The `labels` array (write-only
in the source) and the `changed`/`tol` convergence test (lines 193–200)
are omitted: the former is never read and the latter only controls early
exit of the outer loop, not the codeword values an iteration produces. -/
def vqIteration (features codebook : List (List ℚ)) : List (List ℚ) :=
  let D := (features.headD []).length
  let csize := codebook.length
  let acc := features.foldl
    (fun (st : List ℕ × List (List ℚ)) fj =>
      let idx := nearestIdxD D codebook fj
      (st.1.set idx (st.1.getD idx 0 + 1),
       st.2.set idx ((List.range D).map fun d =>
         (st.2.getD idx []).getD d 0 + fj.getD d 0)))
    (List.replicate csize 0, List.replicate csize (List.replicate D 0))
  (List.range csize).map fun k =>
    let cnt := acc.1.getD k 0
    let s := acc.2.getD k []
    if 0 < cnt then s.map fun v => v / (cnt : ℚ) else s

/-! ## The Toeplitz quadratic form (positive-semidefiniteness of an
autocorrelation input to `levinsonDurbin`) -/

/-- The quadratic form `c ↦ Σᵢⱼ cᵢ·cⱼ·R[|i-j|]` of the `p × p` Toeplitz
matrix built from the lag vector `R`; nonnegativity for all `c` is
positive-semidefiniteness of the autocorrelation input. -/
def toeplitzForm (R : List ℚ) (p : ℕ) (c : Fin p → ℚ) : ℚ :=
  ∑ i : Fin p, ∑ j : Fin p, c i * c j * R.getD ((i : ℤ) - (j : ℤ)).natAbs 0

/-! ## Claim theorems -/

/-- A fold whose step function fixes every state satisfying an invariant
leaves such a state untouched. -/
theorem foldl_eq_self_of_fixed {α β : Type} (f : α → β → α) (P : α → Prop)
    (hP : ∀ a b, P a → f a b = a) :
    ∀ (l : List β) (a : α), P a → l.foldl f a = a
  | [], _, _ => rfl
  | b :: l, a, h => by
      rw [List.foldl_cons, hP a b h]
      exact foldl_eq_self_of_fixed f P hP l a h

/-- A JS `>` comparison against an `undefined` running maximum is always
false. -/
theorem jsGtOpt_none (x : Option ℚ) : jsGtOpt x none = false := by
  cases x <;> rfl

/-- The output length of `resample` is `⌈len/ratio⌉`. -/
theorem resample_length (s : List ℚ) (o n : ℚ) :
    (resample s o n).length = (⌈(s.length : ℚ) / (o / n)⌉).toNat := by
  simp only [resample, List.length_map, List.length_range]

/-- The output length of the unwrapped resampler. -/
theorem resampleQ_length (s : List ℚ) (o n : ℚ) :
    (resampleQ s o n).length = (⌈(s.length : ℚ) / (o / n)⌉).toNat := by
  simp only [resampleQ, List.length_map, resample_length]

/-- Ceiling of `n/2` over `ℚ`, as a natural number, is `(n+1)/2`. -/
theorem ceil_half_toNat (n : ℕ) : (⌈(n : ℚ) / 2⌉).toNat = (n + 1) / 2 := by
  rcases Nat.even_or_odd n with ⟨m, hm⟩ | ⟨m, hm⟩
  · subst hm
    have h : ((m + m : ℕ) : ℚ) / 2 = ((m : ℕ) : ℚ) := by push_cast; ring
    rw [h, Int.ceil_natCast]
    omega
  · subst hm
    have h : ((2 * m + 1 : ℕ) : ℚ) / 2 = (m : ℚ) + 1 / 2 := by push_cast; ring
    rw [h]
    have h2 : ⌈(m : ℚ) + 1 / 2⌉ = (m : ℤ) + 1 := by
      rw [add_comm, Int.ceil_add_nat]
      rw [show ⌈(1 : ℚ) / 2⌉ = 1 from by rw [Int.ceil_eq_iff] <;> norm_num]
      omega
    rw [h2]
    omega

/-- Claim C2.  The source's step-`m` coefficient update `a[j] += k·a[m-j]`
runs in place for increasing `j`, so for `j > m-j` it reads a value
already overwritten in the same step; consequently the returned vector
differs from the reference Levinson-Durbin recursion (in which every
read sees the order-`(m-1)` coefficients) already at `R = [1, 1/2, 1/2,
1/2]`, `order = 3`: in step `m = 3` the code reads the freshly updated
`a[1]` when updating `a[2]` and returns `a[2] = -13/48` instead of the
reference `-1/4`. -/
theorem C2_ld_inplace_update_eval :
    levinsonDurbin [1, 1/2, 1/2, 1/2] 3 = [1, -1/4, -13/48, -1/4] ∧
    levinsonDurbinRef [1, 1/2, 1/2, 1/2] 3 = [1, -1/4, -1/4, -1/4] ∧
    levinsonDurbin [1, 1/2, 1/2, 1/2] 3 ≠
      levinsonDurbinRef [1, 1/2, 1/2, 1/2] 3 := by
  have h1 : levinsonDurbin [1, 1/2, 1/2, 1/2] 3 = [1, -1/4, -13/48, -1/4] := by
    norm_num [levinsonDurbin, ldRun, ldStep, ldInit, List.range', List.range_succ, List.range_zero, List.replicate, List.set, List.getD, List.getElem?_cons_zero, List.getElem?_cons_succ]
  have h2 : levinsonDurbinRef [1, 1/2, 1/2, 1/2] 3 = [1, -1/4, -1/4, -1/4] := by
    norm_num [levinsonDurbinRef, ldStepRef, ldInit, List.range', List.range_succ, List.range_zero, List.replicate, List.set, List.getD, List.getElem?_cons_zero, List.getElem?_cons_succ]
  refine ⟨h1, h2, ?_⟩
  rw [h1, h2]
  norm_num

/-- Claim C3.  In a training iteration on features `[[0]]` with current
codebook `[[0], [5]]`, the single feature vector is assigned to codeword
0, so codeword 1 receives zero assignments — yet the iteration replaces
it by the zero-filled accumulator row `[0]` instead of leaving it at its
previous value `[5]` (lines 187–199 install `newCodebook[k]`
unconditionally). -/
theorem C3_vq_empty_cluster_eval :
    nearestIdxD 1 [[0], [5]] [0] = 0 ∧
    vqIteration [[0]] [[0], [5]] = [[0], [0]] ∧
    (vqIteration [[0]] [[0], [5]]).getD 1 [] ≠ [5] := by
  norm_num [vqIteration, nearestIdxD, scanMin, sqDistUpTo, List.range', List.range_succ, List.range_zero, List.replicate, List.set, List.getD, List.getElem?_cons_zero, List.getElem?_cons_succ]

/-- Claim C4.  On `R = [1, 1, 0]` with `order = 2` the recursion reaches
`e[1] = 0` before the requested order (first conjunct, exact-rational
trace of orders 0–1), and the source then divides by it anyway: under
IEEE semantics the call returns the coefficient array
`[1, -Infinity, +Infinity]` — no error of any kind is raised, the
non-finite values are simply returned. -/
theorem C4_ld_breakdown_eval :
    ldErrors [1, 1, 0] 1 = [1, 0] ∧
    levinsonDurbinJS [1, 1, 0] 2 =
      [JsNum.num 1, JsNum.inf false, JsNum.inf true] := by
  norm_num [levinsonDurbinJS, ldStepJS, ldErrors, ldRun, ldStep, ldInit, jsIndex,
    JsNum.add, JsNum.mul, JsNum.div, JsNum.neg, JsNum.sub, List.range', List.range_succ, List.range_zero, List.replicate, List.set, List.getD, List.getElem?_cons_zero, List.getElem?_cons_succ]

/-- Claim C5, counterexample.  For the odd-length signal `[0, 0, 0]` and
rate `fs = 2`, downsampling to `fs/2 = 1` yields `⌈3/2⌉ = 2` samples and
upsampling back yields `⌈2/(1/2)⌉ = 4` samples, not 3: the round trip
does not preserve the length of an odd-length signal. -/
theorem C5_roundtrip_length_counterexample :
    (resampleQ (resampleQ [0, 0, 0] 2 (2 / 2)) (2 / 2) 2).length = 4 ∧
    ([0, 0, 0] : List ℚ).length = 3 := by
  refine ⟨?_, rfl⟩
  rw [resampleQ_length, resampleQ_length]
  have h1 : ((([0, 0, 0] : List ℚ).length : ℚ)) / (2 / (2 / 2)) = 3 / 2 := by
    norm_num
  rw [h1]
  have h2 : (⌈(3 : ℚ) / 2⌉ : ℤ) = 2 := by
    rw [Int.ceil_eq_iff] <;> norm_num
  rw [h2]
  have h3 : (((2 : ℤ).toNat : ℚ)) / (2 / 2 / 2) = 4 := by
    rw [show (2 : ℤ).toNat = 2 from rfl]
    norm_num
  rw [h3]
  have h4 : (⌈(4 : ℚ)⌉ : ℤ) = 4 := by
    rw [Int.ceil_eq_iff] <;> norm_num
  rw [h4]
  rfl

/-- Claim C6.  With `signal = [1, 0, 0, 0]` (length 4), `fs = 16000`,
`minFreq = 80`, `maxFreq = 300`, the lag window is `[53, 200)`, entirely
beyond the signal: every `normalized[i]` read is `undefined`.  The
source still returns the number `16000/53 ≈ 301.9` (every comparison
with `undefined` is false, so the voicing test `maxVal < 0.5` does not
trigger) instead of failing with `InvalidRange`. -/
theorem C6_pitch_window_out_of_range_eval :
    (⌊(16000 : ℚ) / 300⌋ = 53 ∧ ([1, 0, 0, 0] : List ℚ).length = 4) ∧
    pitchDetectionAutocorr [1, 0, 0, 0] 16000 80 300 = 16000 / 53 := by
  have hac : autocorr [1, 0, 0, 0] = [1, 0, 0, 0] := by
    norm_num [autocorr, Finset.sum_range_succ, List.range', List.range_succ, List.range_zero, List.replicate, List.set, List.getD, List.getElem?_cons_zero, List.getElem?_cons_succ]
  have hfloor1 : ⌊(16000 : ℚ) / 300⌋ = 53 := by
    rw [Int.floor_eq_iff]
    constructor <;> norm_num
  have hfloor2 : ⌊(16000 : ℚ) / 80⌋ = 200 := by
    rw [Int.floor_eq_iff]
    constructor <;> norm_num
  have hmax : jsMax [1, 0, 0, 0] = 1 := by
    norm_num [jsMax, List.foldl, max_def]
  refine ⟨⟨hfloor1, rfl⟩, ?_⟩
  simp only [pitchDetectionAutocorr, hac, hmax, hfloor1, hfloor2]
  norm_num [jsGet]
  have hnone : ([1, 0, 0, 0] : List ℚ)[(53 : ℤ).toNat]? = none := rfl
  rw [hnone]
  rw [foldl_eq_self_of_fixed _ (fun st : ℤ × Option ℚ => st.2 = none) ?_ _ _ rfl]
  · norm_num [jsLtOpt]
  · intro a b h
    obtain ⟨z, o⟩ := a
    simp only at h
    subst h
    simp [jsGtOpt_none]


/-- Claim C5, amended.  For every signal `x` and positive rate `fs`, the
round trip `resample(resample(x, fs, fs/2), fs/2, fs)` has length
`2·⌈len(x)/2⌉`; this equals `len(x)` exactly when `len(x)` is even (for
odd lengths it is `len(x) + 1`). -/
theorem C5_roundtrip_length (x : List ℚ) (fs : ℚ) (hfs : 0 < fs) :
    (resampleQ (resampleQ x fs (fs / 2)) (fs / 2) fs).length =
      2 * ((x.length + 1) / 2) ∧
    (x.length % 2 = 0 →
      (resampleQ (resampleQ x fs (fs / 2)) (fs / 2) fs).length = x.length) := by
  have hfs' : fs ≠ 0 := ne_of_gt hfs
  have hr1 : fs / (fs / 2) = 2 := by
    field_simp
  have hr2 : fs / 2 / fs = 1 / 2 := by
    field_simp
    ring
  have hlen1 : (resampleQ x fs (fs / 2)).length = (x.length + 1) / 2 := by
    rw [resampleQ_length, hr1, ceil_half_toNat]
  have hlen2 : (resampleQ (resampleQ x fs (fs / 2)) (fs / 2) fs).length =
      2 * ((x.length + 1) / 2) := by
    rw [resampleQ_length, hr2, hlen1]
    have h : (((x.length + 1) / 2 : ℕ) : ℚ) / (1 / 2) =
        ((2 * ((x.length + 1) / 2) : ℕ) : ℚ) := by
      push_cast
      ring
    rw [h, Int.ceil_natCast]
    omega
  exact ⟨hlen2, fun he => by rw [hlen2]; omega⟩

theorem C5_roundtrip_length_witness :
    (0 : ℚ) < 2 ∧
    (resampleQ (resampleQ [0, 0] 2 (2 / 2)) (2 / 2) 2).length =
      ([0, 0] : List ℚ).length :=
  ⟨by norm_num, (C5_roundtrip_length [0, 0] 2 (by norm_num)).2 (by norm_num)⟩

/-- Claim C10.  For a nonempty signal and positive rates, every array read
`resample` performs is in bounds: each output entry is `some _` (the
`undefined`/NaN branch of the `Option`-valued embedding is never
taken). -/
theorem C10_resample_reads_in_bounds (signal : List ℚ) (oldFs newFs : ℚ)
    (h0 : signal ≠ []) (h1 : 0 < oldFs) (h2 : 0 < newFs) :
    ∀ y ∈ resample signal oldFs newFs, y.isSome := by
  intro y hy
  simp only [resample, List.mem_map, List.mem_range] at hy
  obtain ⟨i, hi, rfl⟩ := hy
  have hratio : 0 < oldFs / newFs := div_pos h1 h2
  have hpos : (0 : ℚ) ≤ (i : ℚ) * (oldFs / newFs) := by positivity
  have hceil : (i : ℤ) < ⌈(signal.length : ℚ) / (oldFs / newFs)⌉ :=
    Int.lt_toNat.mp hi
  have hlt : (i : ℚ) * (oldFs / newFs) < signal.length := by
    have h3 : (i : ℚ) < (signal.length : ℚ) / (oldFs / newFs) := by
      exact_mod_cast Int.lt_ceil.mp hceil
    exact (lt_div_iff hratio).mp h3
  have hfl : ⌊(i : ℚ) * (oldFs / newFs)⌋ < (signal.length : ℤ) := by
    rw [Int.floor_lt]
    exact_mod_cast hlt
  have hfl0 : 0 ≤ ⌊(i : ℚ) * (oldFs / newFs)⌋ := Int.floor_nonneg.mpr hpos
  have hget : ∀ z : ℤ, 0 ≤ z → z < (signal.length : ℤ) →
      (jsGet signal z).isSome := by
    intro z hz0 hzlt
    rw [jsGet, if_pos hz0, List.getElem?_eq_getElem (by omega)]
    rfl
  by_cases hb : ⌊(i : ℚ) * (oldFs / newFs)⌋ + 1 < (signal.length : ℤ)
  · rw [if_pos hb]
    obtain ⟨a, ha⟩ := Option.isSome_iff_exists.mp (hget _ hfl0 hfl)
    obtain ⟨b, hbb⟩ := Option.isSome_iff_exists.mp (hget _ (by omega) hb)
    rw [ha, hbb]
    rfl
  · rw [if_neg hb]
    exact hget _ hfl0 hfl

theorem C10_resample_reads_in_bounds_witness :
    ([1, 2] : List ℚ) ≠ [] ∧ (0 : ℚ) < 2 ∧ (0 : ℚ) < 1 ∧
    ∀ y ∈ resample [1, 2] 2 1, y.isSome :=
  ⟨by simp, by norm_num, by norm_num,
    C10_resample_reads_in_bounds [1, 2] 2 1 (by simp) (by norm_num)
      (by norm_num)⟩


/-! ### Autocorrelation bounds (claim C9) -/

theorem abs_le_of_sq_le_sq (a b : ℚ) (h : a ^ 2 ≤ b ^ 2) (hb : 0 ≤ b) :
    |a| ≤ b := by
  nlinarith [sq_abs a, abs_nonneg a]

theorem init_le_foldl_max (x : ℚ) (l : List ℚ) : x ≤ l.foldl max x := by
  induction l generalizing x with
  | nil => exact le_refl x
  | cons a l ih => exact le_trans (le_max_left x a) (ih (max x a))

theorem mem_le_foldl_max (x y : ℚ) (l : List ℚ) (hy : y ∈ l) :
    y ≤ l.foldl max x := by
  induction l generalizing x with
  | nil => cases hy
  | cons a l ih =>
      rcases List.mem_cons.mp hy with rfl | hmem
      · exact le_trans (le_max_right x y) (init_le_foldl_max _ l)
      · exact ih _ hmem

theorem foldl_max_mem (x : ℚ) (l : List ℚ) :
    l.foldl max x = x ∨ l.foldl max x ∈ l := by
  induction l generalizing x with
  | nil => exact Or.inl rfl
  | cons a l ih =>
      rcases ih (max x a) with h | h
      · rcases max_choice x a with hm | hm
        · exact Or.inl (by rw [List.foldl_cons, h, hm])
        · exact Or.inr (by rw [List.foldl_cons, h, hm]; exact List.mem_cons_self a l)
      · exact Or.inr (List.mem_cons_of_mem a h)

theorem autocorr_length (s : List ℚ) : (autocorr s).length = s.length := by
  simp [autocorr]

theorem autocorr_getD (s : List ℚ) (lag : ℕ) (h : lag < s.length) :
    (autocorr s).getD lag 0 =
      ∑ i ∈ Finset.range (s.length - lag), s.getD i 0 * s.getD (i + lag) 0 := by
  simp only [autocorr, List.getD_eq_getElem?_getD, List.getElem?_map,
    List.getElem?_range h, Option.map_some', Option.getD_some]

theorem autocorr_zero_nonneg (s : List ℚ) (h : s ≠ []) :
    0 ≤ (autocorr s).getD 0 0 := by
  rw [autocorr_getD s 0 (List.length_pos.mpr h)]
  exact Finset.sum_nonneg fun i _ => by
    rw [Nat.add_zero]
    exact mul_self_nonneg _

theorem autocorr_abs_le (s : List ℚ) (lag : ℕ) (h : lag < s.length) :
    |(autocorr s).getD lag 0| ≤ (autocorr s).getD 0 0 := by
  have h0 : 0 < s.length := by omega
  rw [autocorr_getD s lag h, autocorr_getD s 0 h0]
  set S := ∑ i ∈ Finset.range (s.length - 0), s.getD i 0 * s.getD (i + 0) 0 with hS
  have hSsq : S = ∑ i ∈ Finset.range s.length, (s.getD i 0) ^ 2 := by
    rw [hS]
    refine Finset.sum_congr (by rw [Nat.sub_zero]) fun i _ => by
      rw [Nat.add_zero, sq]
  have hS0 : 0 ≤ S := by
    rw [hSsq]
    exact Finset.sum_nonneg fun i _ => sq_nonneg _
  have cs := Finset.sum_mul_sq_le_sq_mul_sq (Finset.range (s.length - lag))
    (fun i => s.getD i 0) (fun i => s.getD (i + lag) 0)
  have b1 : ∑ i ∈ Finset.range (s.length - lag), (s.getD i 0) ^ 2 ≤ S := by
    rw [hSsq]
    exact Finset.sum_le_sum_of_subset_of_nonneg
      (Finset.range_subset.mpr (by omega)) (fun i _ _ => sq_nonneg _)
  have b2 : ∑ i ∈ Finset.range (s.length - lag), (s.getD (i + lag) 0) ^ 2 ≤ S := by
    have hre : ∑ i ∈ Finset.range (s.length - lag), (s.getD (i + lag) 0) ^ 2 =
        ∑ j ∈ Finset.Ico lag s.length, (s.getD j 0) ^ 2 := by
      rw [Finset.sum_Ico_eq_sum_range]
      exact Finset.sum_congr rfl fun i _ => by rw [Nat.add_comm]
    rw [hre, hSsq]
    refine Finset.sum_le_sum_of_subset_of_nonneg ?_ (fun i _ _ => sq_nonneg _)
    rw [Finset.range_eq_Ico]
    exact Finset.Ico_subset_Ico (Nat.zero_le _) le_rfl
  have hsq : (∑ i ∈ Finset.range (s.length - lag),
      s.getD i 0 * s.getD (i + lag) 0) ^ 2 ≤ S ^ 2 := by
    calc (∑ i ∈ Finset.range (s.length - lag),
          s.getD i 0 * s.getD (i + lag) 0) ^ 2
        ≤ (∑ i ∈ Finset.range (s.length - lag), (s.getD i 0) ^ 2) *
            ∑ i ∈ Finset.range (s.length - lag), (s.getD (i + lag) 0) ^ 2 := cs
      _ ≤ S * S := by
          refine mul_le_mul b1 b2 (Finset.sum_nonneg fun i _ => sq_nonneg _) hS0
      _ = S ^ 2 := (sq S).symm
  exact abs_le_of_sq_le_sq _ _ hsq hS0

theorem autocorr_ne_nil (s : List ℚ) (h : s ≠ []) : autocorr s ≠ [] := by
  have := autocorr_length s
  intro hc
  rw [hc] at this
  exact h (List.length_eq_zero.mp this.symm)

theorem autocorr_mem_le (s : List ℚ) (h : s ≠ []) :
    ∀ y ∈ autocorr s, y ≤ (autocorr s).getD 0 0 := by
  intro y hy
  obtain ⟨i, hilen, hiy⟩ := List.mem_iff_getElem.mp hy
  have hgd : (autocorr s).getD i 0 = y := by
    rw [List.getD_eq_getElem?_getD, List.getElem?_eq_getElem hilen,
      Option.getD_some, hiy]
  have hi2 : i < s.length := by
    have := autocorr_length s
    omega
  calc y ≤ |y| := le_abs_self y
    _ = |(autocorr s).getD i 0| := by rw [hgd]
    _ ≤ _ := autocorr_abs_le s i hi2

theorem jsMax_autocorr (s : List ℚ) (h : s ≠ []) :
    jsMax (autocorr s) = (autocorr s).getD 0 0 := by
  obtain ⟨a0, rest, hcons⟩ := List.exists_cons_of_ne_nil (autocorr_ne_nil s h)
  have ha0 : (autocorr s).getD 0 0 = a0 := by rw [hcons]; rfl
  apply le_antisymm
  · rcases foldl_max_mem a0 rest with hm | hm
    · rw [hcons]
      simp only [jsMax]
      rw [hm]
      exact le_refl a0
    · apply autocorr_mem_le s h
      rw [hcons]
      simp only [jsMax]
      exact List.mem_cons_of_mem a0 hm
  · rw [ha0, hcons]
    simp only [jsMax]
    exact init_le_foldl_max a0 rest

/-- Claim C9.  For every nonempty real signal, the raw autocorrelation
satisfies `0 ≤ ac[0]` and `|ac[lag]| ≤ ac[0]` for every lag (by
Cauchy-Schwarz, in exact arithmetic); hence the global maximum the pitch
detector divides by equals `ac[0]`, and when it is nonzero every
normalized value lies in `[-1, 1]`. -/
theorem C9_autocorr_bounds (signal : List ℚ) (h : signal ≠ []) :
    0 ≤ (autocorr signal).getD 0 0 ∧
    (∀ lag < (autocorr signal).length,
      |(autocorr signal).getD lag 0| ≤ (autocorr signal).getD 0 0) ∧
    jsMax (autocorr signal) = (autocorr signal).getD 0 0 ∧
    (jsMax (autocorr signal) ≠ 0 →
      ∀ lag < (autocorr signal).length,
        -1 ≤ (autocorr signal).getD lag 0 / jsMax (autocorr signal) ∧
        (autocorr signal).getD lag 0 / jsMax (autocorr signal) ≤ 1) := by
  have hlen := autocorr_length signal
  refine ⟨autocorr_zero_nonneg _ h, ?_, jsMax_autocorr _ h, ?_⟩
  · intro lag hlag
    exact autocorr_abs_le _ _ (by omega)
  · intro hne lag hlag
    rw [jsMax_autocorr _ h] at hne ⊢
    have hpos : 0 < (autocorr signal).getD 0 0 :=
      lt_of_le_of_ne (autocorr_zero_nonneg _ h) (Ne.symm hne)
    have habs := autocorr_abs_le signal lag (by omega)
    rw [abs_le] at habs
    constructor
    · rw [le_div_iff₀ hpos]
      linarith [habs.1]
    · rw [div_le_one₀ hpos]
      exact habs.2

theorem C9_autocorr_bounds_witness :
    ([1, 2] : List ℚ) ≠ [] ∧ 0 ≤ (autocorr [1, 2]).getD 0 0 :=
  ⟨by simp, (C9_autocorr_bounds [1, 2] (by simp)).1⟩



/-! ### Nearest-codeword correctness (claim C8) -/

/-- Characterization of the strict-improvement scan from a `some` state:
either no candidate beats the incumbent minimum (state unchanged, the
incumbent is a lower bound), or the scan lands on the first position
attaining the least distance (which strictly beats the incumbent and
every earlier position). -/
theorem scanMin_some_spec (ds : List ℚ) : ∀ (k : ℕ) (m : ℚ) (bi : ℕ),
    (scanMin ds k (some m, bi) = (some m, bi) ∧
      ∀ t < ds.length, m ≤ ds.getD t 0) ∨
    (∃ j, j < ds.length ∧
      scanMin ds k (some m, bi) = (some (ds.getD j 0), k + j) ∧
      ds.getD j 0 < m ∧
      (∀ t < ds.length, ds.getD j 0 ≤ ds.getD t 0) ∧
      (∀ t < j, ds.getD j 0 < ds.getD t 0)) := by
  induction ds with
  | nil =>
      intro k m bi
      exact Or.inl ⟨rfl, fun t ht => absurd ht (by simp)⟩
  | cons d rest ih =>
      intro k m bi
      by_cases hdm : d < m
      · have hstep : scanMin (d :: rest) k (some m, bi) =
            scanMin rest (k + 1) (some d, k) := by
          simp [scanMin, hdm]
        rcases ih (k + 1) d k with ⟨heq, hub⟩ | ⟨j, hj, heq, hlt, hmin, hstrict⟩
        · refine Or.inr ⟨0, by simp, ?_, ?_, ?_, ?_⟩
          · rw [hstep, heq]
            simp
          · simpa using hdm
          · intro t ht
            match t with
            | 0 => simp
            | t + 1 =>
                simp only [List.getD_cons_zero, List.getD_cons_succ]
                exact hub t (by simpa using ht)
          · intro t ht
            omega
        · refine Or.inr ⟨j + 1, by simpa using hj, ?_, ?_, ?_, ?_⟩
          · rw [hstep, heq]
            simp only [List.getD_cons_succ]
            congr 1
            omega
          · simp only [List.getD_cons_succ]
            exact lt_trans hlt hdm
          · intro t ht
            match t with
            | 0 =>
                simp only [List.getD_cons_succ, List.getD_cons_zero]
                exact le_of_lt hlt
            | t + 1 =>
                simp only [List.getD_cons_succ]
                exact hmin t (by simpa using ht)
          · intro t ht
            match t with
            | 0 =>
                simp only [List.getD_cons_succ, List.getD_cons_zero]
                exact hlt
            | t + 1 =>
                simp only [List.getD_cons_succ]
                exact hstrict t (by omega)
      · have hstep : scanMin (d :: rest) k (some m, bi) =
            scanMin rest (k + 1) (some m, bi) := by
          simp [scanMin, hdm]
        rcases ih (k + 1) m bi with ⟨heq, hub⟩ | ⟨j, hj, heq, hlt, hmin, hstrict⟩
        · refine Or.inl ⟨by rw [hstep, heq], ?_⟩
          intro t ht
          match t with
          | 0 => simpa using le_of_not_lt hdm
          | t + 1 =>
              simp only [List.getD_cons_succ]
              exact hub t (by simpa using ht)
        · refine Or.inr ⟨j + 1, by simpa using hj, ?_, ?_, ?_, ?_⟩
          · rw [hstep, heq]
            simp only [List.getD_cons_succ]
            congr 1
            omega
          · simp only [List.getD_cons_succ]
            exact hlt
          · intro t ht
            match t with
            | 0 =>
                simp only [List.getD_cons_succ, List.getD_cons_zero]
                exact le_trans (le_of_lt hlt) (le_of_not_lt hdm)
            | t + 1 =>
                simp only [List.getD_cons_succ]
                exact hmin t (by simpa using ht)
          · intro t ht
            match t with
            | 0 =>
                simp only [List.getD_cons_succ, List.getD_cons_zero]
                exact lt_of_lt_of_le hlt (le_of_not_lt hdm)
            | t + 1 =>
                simp only [List.getD_cons_succ]
                exact hstrict t (by omega)

/-- Reading a mapped distance list at an in-range index. -/
theorem getD_map_dist (g : List ℚ → ℚ) (cb : List (List ℚ)) (j : ℕ)
    (hj : j < cb.length) :
    (cb.map g).getD j 0 = g (cb.getD j []) := by
  rw [List.getD_eq_getElem?_getD, List.getElem?_map, List.getElem?_eq_getElem hj,
    Option.map_some', Option.getD_some, List.getD_eq_getElem?_getD,
    List.getElem?_eq_getElem hj, Option.getD_some]

/-- `nearestIdx` returns an in-range index of a codeword of minimal
squared distance, and the least such index (ties to the lowest index:
every strictly smaller index has strictly larger distance). -/
theorem nearestIdx_spec (cb : List (List ℚ)) (f : List ℚ) (hcb : cb ≠ []) :
    nearestIdx cb f < cb.length ∧
    (∀ j < cb.length,
      sqDist f (cb.getD (nearestIdx cb f) []) ≤ sqDist f (cb.getD j [])) ∧
    (∀ j < nearestIdx cb f,
      sqDist f (cb.getD (nearestIdx cb f) []) < sqDist f (cb.getD j [])) := by
  obtain ⟨c, rest, rfl⟩ := List.exists_cons_of_ne_nil hcb
  have hni : nearestIdx (c :: rest) f =
      (scanMin (rest.map (sqDist f)) 1 (some (sqDist f c), 0)).2 := by
    rw [nearestIdx]
    simp only [List.map_cons]
    rfl
  have hlen' : (rest.map (sqDist f)).length = rest.length := List.length_map _ _
  rcases scanMin_some_spec (rest.map (sqDist f)) 1 (sqDist f c) 0 with
    ⟨heq, hub⟩ | ⟨j, hj, heq, hlt, hmin, hstrict⟩
  · have hni0 : nearestIdx (c :: rest) f = 0 := by rw [hni, heq]
    rw [hni0]
    refine ⟨by simp, ?_, by omega⟩
    intro t ht
    match t with
    | 0 => exact le_refl _
    | t + 1 =>
        simp only [List.getD_cons_zero, List.getD_cons_succ]
        have := hub t (by rw [hlen']; simpa using ht)
        rwa [getD_map_dist (sqDist f) rest t (by simpa using ht)] at this
  · have hjr : j < rest.length := by rwa [hlen'] at hj
    have hval : (rest.map (sqDist f)).getD j 0 = sqDist f (rest.getD j []) :=
      getD_map_dist (sqDist f) rest j hjr
    have hni1 : nearestIdx (c :: rest) f = j + 1 := by
      rw [hni, heq]
      omega
    rw [hni1]
    refine ⟨by simpa using hjr, ?_, ?_⟩
    · intro t ht
      simp only [List.getD_cons_succ]
      match t with
      | 0 =>
          simp only [List.getD_cons_zero]
          rw [← hval]
          exact le_of_lt hlt
      | t + 1 =>
          simp only [List.getD_cons_succ]
          have := hmin t (by rw [hlen']; simpa using ht)
          rwa [hval, getD_map_dist (sqDist f) rest t (by simpa using ht)] at this
    · intro t ht
      simp only [List.getD_cons_succ]
      match t with
      | 0 =>
          simp only [List.getD_cons_zero]
          rw [← hval]
          exact hlt
      | t + 1 =>
          simp only [List.getD_cons_succ]
          have := hstrict t (by omega)
          rwa [hval, getD_map_dist (sqDist f) rest t (by omega)] at this

/-- Claim C8.  For every nonempty codebook and every feature vector,
`quantize` returns the index of the codeword minimizing squared
Euclidean distance, ties resolved to the lowest index, and the index
lies in `[0, codebookSize)`; concretely, for the codebook `([0], [10])`
the features `[1]`, `[9]`, `[5]` map to indices `0`, `1`, `0` (the tie
at `[5]` resolves to index 0). -/
theorem C8_quantize_nearest :
    (∀ (cb : List (List ℚ)) (f : List ℚ), cb ≠ [] →
      nearestIdx cb f < cb.length ∧
      (∀ j < cb.length,
        sqDist f (cb.getD (nearestIdx cb f) []) ≤ sqDist f (cb.getD j [])) ∧
      (∀ j < nearestIdx cb f,
        sqDist f (cb.getD (nearestIdx cb f) []) < sqDist f (cb.getD j []))) ∧
    vectorQuantization [[0], [10]] [[1], [9], [5]] = [0, 1, 0] := by
  refine ⟨nearestIdx_spec, ?_⟩
  norm_num [vectorQuantization, nearestIdx, scanMin, sqDist, sqDistUpTo,
    List.range', List.range_succ, List.range_zero, List.getD,
    List.getElem?_cons_zero, List.getElem?_cons_succ]

theorem C8_quantize_nearest_witness :
    ([[0], [10]] : List (List ℚ)) ≠ [] ∧ nearestIdx [[0], [10]] [5] < 2 :=
  ⟨by simp, (C8_quantize_nearest.1 [[0], [10]] [5] (by simp)).1⟩



/-! ### Energy-sequence violation (claim C7) -/

set_option maxHeartbeats 1600000 in
/-- Claim C7.  A counterexample on a genuinely positive-semidefinite
input: `R = [36, -30, 17, -6, 1]` is the autocorrelation of the signal
`[1, -3, 4, -3, 1]` (first conjunct) and its 5×5 Toeplitz quadratic form
is nonnegative (second conjunct, via an explicit LDLᵀ sum-of-squares
certificate).  The recursion runs to order 4 with strictly positive
energies `e[0..3]` (fourth conjunct, so no breakdown/division by zero
occurs), yet the source computes `e[4] < 0` (fifth conjunct): the
in-place update corrupts the coefficients (claim C2), the corrupted
step-4 reflection coefficient exceeds 1 in magnitude, and the
energy-sequence invariant fails even though the input is PSD. -/
theorem C7_ld_energy_negative_eval :
    autocorr [1, -3, 4, -3, 1] = [36, -30, 17, -6, 1] ∧
    (∀ c : Fin 5 → ℚ, 0 ≤ toeplitzForm [36, -30, 17, -6, 1] 5 c) ∧
    ldErrors [36, -30, 17, -6, 1] 4 =
      [36, 11, 57 / 11, 6193 / 2052, -(1290048590362 / 1248974371161)] ∧
    (∀ m < 4, 0 < (ldErrors [36, -30, 17, -6, 1] 4).getD m 0) ∧
    (ldErrors [36, -30, 17, -6, 1] 4).getD 4 0 < 0 := by
  have hac : autocorr [1, -3, 4, -3, 1] = [36, -30, 17, -6, 1] := by
    norm_num [autocorr, Finset.sum_range_succ, List.range', List.range_succ, List.range_zero, List.replicate, List.set, List.getD, List.getElem?_cons_zero, List.getElem?_cons_succ]
  have hpsd : ∀ c : Fin 5 → ℚ, 0 ≤ toeplitzForm [36, -30, 17, -6, 1] 5 c := by
    intro c
    have key : toeplitzForm [36, -30, 17, -6, 1] 5 c =
        36 * (c 0 - 5/6 * c 1 + 17/36 * c 2 - 1/6 * c 3 + 1/36 * c 4) ^ 2
        + 11 * (c 1 - 95/66 * c 2 + 12/11 * c 3 - 31/66 * c 4) ^ 2
        + (57/11) * (c 2 - 653/342 * c 3 + 100/57 * c 4) ^ 2
        + (6193/2052) * (c 3 - 14034/6193 * c 4) ^ 2
        + (12994/6193) * (c 4) ^ 2 := by
      simp only [toeplitzForm, Fin.sum_univ_five,
        show ((0 : Fin 5) : ℤ) = 0 from rfl, show ((1 : Fin 5) : ℤ) = 1 from rfl,
        show ((2 : Fin 5) : ℤ) = 2 from rfl, show ((3 : Fin 5) : ℤ) = 3 from rfl,
        show ((4 : Fin 5) : ℤ) = 4 from rfl]
      norm_num
      ring
    rw [key]
    positivity
  have heval : ldErrors [36, -30, 17, -6, 1] 4 =
      [36, 11, 57 / 11, 6193 / 2052, -(1290048590362 / 1248974371161)] := by
    norm_num [ldErrors, ldRun, ldStep, ldInit, List.range', List.range_succ, List.range_zero, List.replicate, List.set, List.getD, List.getElem?_cons_zero, List.getElem?_cons_succ]
  refine ⟨hac, hpsd, heval, ?_, ?_⟩
  · intro m hm
    rw [heval]
    interval_cases m <;> norm_num
  · rw [heval]
    norm_num



theorem C7_ld_energy_negative_eval_witness :
    (0 : ℕ) < 4 ∧ 0 < (ldErrors [36, -30, 17, -6, 1] 4).getD 0 0 :=
  ⟨by norm_num, C7_ld_energy_negative_eval.2.2.2.1 0 (by norm_num)⟩

/-! ### FFT round trip (claim C1) -/

/-- The zero complex number as a structure literal. -/
theorem mk_zero_zero : ({ re := 0, im := 0 } : ℂ) = 0 := rfl

/-- Base case of the transform: a singleton is returned unchanged. -/
theorem cfft_single (z : ℂ) : cfft [z] = [z] := by
  rw [cfft]
  norm_num

/-- Evaluation of the source's transform at any length-2 input: because
line 51 discards the product `t.mul(oddFFT[k])`, the combine step adds
and subtracts the bare twiddle `exp(0) = 1` and the second input never
reaches the output: `cfft [a, b] = [a + 1, a - 1]`. -/
theorem cfft_pair (a b : ℂ) : cfft [a, b] = [a + 1, a - 1] := by
  rw [cfft]
  norm_num [evens, odds, cfft_single, mk_zero_zero, Complex.exp_zero,
    List.range_succ, List.range_zero]

/-- Claim C1.  The round trip fails already at the power-of-two input
`x = [1, 0]` (`N = 2`): the forward transform returns `[2, 0]` instead
of the DFT `[1, 1]` (line 51 discards the result of
`t.mul(oddFFT[k])`, since `Complex.prototype.mul` returns a fresh value
that is never stored), and `ifft(fft([1, 0]))` evaluates to
`[3/2, 1/2] ≠ [1, 0]`. -/
theorem C1_fft_roundtrip_eval :
    cfft [1, 0] = [2, 0] ∧
    icfft (cfft [1, 0]) = [3 / 2, 1 / 2] ∧
    icfft (cfft [1, 0]) ≠ [1, 0] := by
  have h1 : cfft [(1 : ℂ), 0] = [2, 0] := by
    rw [cfft_pair]
    norm_num
  have h2 : icfft [(2 : ℂ), 0] = [3 / 2, 1 / 2] := by
    simp only [icfft]
    have hc : ([(2 : ℂ), 0].map fun z => ({ re := z.re, im := -z.im } : ℂ)) =
        [2, 0] := by
      norm_num [Complex.ext_iff]
    rw [hc, cfft_pair]
    norm_num [Complex.ext_iff]
  refine ⟨h1, by rw [h1]; exact h2, ?_⟩
  rw [h1, h2]
  intro hcon
  rw [List.cons_eq_cons] at hcon
  have := hcon.1
  norm_num [Complex.ext_iff] at this

end SSARdsp
